import Mathlib

/-!
Shallow embedding of the vargas graph core (graph.h / graph.cpp, utils.h,
gdef.cpp) and proofs about it.  Machine integers (`long`, `int`) are modelled
as `Int`, `size_t` indices as `Nat`, `float` allele frequencies as `Rat`
(all concrete frequencies used below are exactly representable), C++ vectors
as `List`, and `std::unordered_map` as association lists (`List (key × value)`)
whose keys are kept unique by the same guards the source uses.
-/

/-! ## Sequence codec (src/include/utils.h, lines 43-108) -/

/-- Embeds `base_to_num` (utils.h): `A,a -> 0`, `C,c -> 1`, `G,g -> 2`,
`T,t -> 3`, anything else `-> 4`.  The C++ `Base` enum is a `Nat`. -/
def base_to_num (c : Char) : Nat :=
  if c = 'A' ∨ c = 'a' then 0
  else if c = 'C' ∨ c = 'c' then 1
  else if c = 'G' ∨ c = 'g' then 2
  else if c = 'T' ∨ c = 't' then 3
  else 4

/-- Embeds `num_to_base` (utils.h): `0..3` map to upper-case `A,C,G,T`,
every other value maps to `N`. -/
def num_to_base (n : Nat) : Char :=
  if n = 0 then 'A'
  else if n = 1 then 'C'
  else if n = 2 then 'G'
  else if n = 3 then 'T'
  else 'N'

/-- Embeds `seq_to_num` (utils.h): element-wise `base_to_num`. -/
def seq_to_num (s : List Char) : List Nat := s.map base_to_num

/-- Embeds `num_to_seq` (utils.h): element-wise `num_to_base`. -/
def num_to_seq (s : List Nat) : List Char := s.map num_to_base

/-! ## GraphBuilder configuration (graph.cpp lines 336-339, graph.h 498-559) -/

/-- The builder state relevant to `GraphBuilder::ingroup`: the configured
ingroup percentage, defaulting to 100 (graph.h line 557). -/
structure GraphBuilderState where
  ingroupPercent : Int := 100
  maxNodeLen : Int := 1000000
deriving Repr, DecidableEq

/-- Embeds `vargas::GraphBuilder::ingroup` (graph.cpp lines 336-339):
values outside `[0, 100]` are ignored, otherwise `_ingroup` is set. -/
def GraphBuilderState.setIngroup (b : GraphBuilderState) (percent : Int) :
    GraphBuilderState :=
  if percent < 0 ∨ percent > 100 then b
  else { b with ingroupPercent := percent }

/-! ## Node (graph.h lines 56-111) -/

/-- Embeds `vargas::Graph::Node`.  Defaults mirror the member initialisers
(`_ref = false`, `_af = 1`); `id` is assigned externally by the global
counter, which the claims below never depend on. -/
structure Node where
  endPos : Int := 0
  seq : List Nat := []
  individuals : List Bool := []
  ref : Bool := false
  af : Rat := 1
  id : Int := 0
deriving Repr, DecidableEq

/-- Embeds `Node::belongs` (graph.h lines 70-73): returns `-1` for a
reference node, otherwise the `ind`-th individual bit as `0`/`1`.
`_individuals[ind]` is in-bounds in every use; out of bounds we read `false`. -/
def Node.belongs (n : Node) (ind : Nat) : Int :=
  if n.ref then -1
  else if n.individuals.getD ind false then 1 else 0

/-! ## Graph (graph.h lines 34-292, graph.cpp lines 150-218) -/

/-- Embeds `vargas::Graph`.  `_IDMap`, `_next_map` and `_prev_map` are
association lists; `_root = -1` until the first node is added. -/
structure Graph where
  root : Int := -1
  idMap : List (Int × Node) := []
  nextMap : List (Int × List Int) := []
  prevMap : List (Int × List Int) := []
  toposort : List Int := []
  addOrder : List Int := []
  popSize : Int := 0
deriving Repr, DecidableEq

/-- Finds the first entry with the given key, as `unordered_map::find` /
`at` do on our association lists (keys are unique in every constructed map). -/
def alookup {α : Type} (m : List (Int × α)) (k : Int) : Option α :=
  match m with
  | [] => none
  | p :: t => if p.1 = k then some p.2 else alookup t k

/-- Looks a key up in an adjacency association list. -/
def mapFind (m : List (Int × List Int)) (k : Int) : Option (List Int) :=
  alookup m k

/-- Appends `v` to the entry of key `k` (which `add_edge` has made present):
the `_next_map[n1].push_back(n2)` step. -/
def mapPush (m : List (Int × List Int)) (k v : Int) : List (Int × List Int) :=
  m.map (fun p => if p.1 = k then (p.1, p.2 ++ [v]) else p)

/-- Embeds `vargas::Graph::add_node` (graph.cpp lines 172-179): returns the
sentinel `0` and the unchanged graph on a duplicate id; otherwise sets the
root if still unset, stores a copy of the node, records insertion order and
returns the node's id. -/
def Graph.add_node (g : Graph) (n : Node) : Int × Graph :=
  if (alookup g.idMap n.id).isSome then (0, g)
  else
    let g1 := if g.root < 0 then { g with root := n.id } else g
    (n.id, { g1 with idMap := g1.idMap ++ [(n.id, n)],
                     addOrder := g1.addOrder ++ [n.id] })

/-- Embeds `vargas::Graph::add_edge` (graph.cpp lines 182-198): fails when an
endpoint is missing; otherwise creates empty adjacency entries as needed,
appends to both maps and clears the cached topological order. -/
def Graph.add_edge (g : Graph) (n1 n2 : Int) : Bool × Graph :=
  if (alookup g.idMap n1).isNone ∨ (alookup g.idMap n2).isNone then (false, g)
  else
    let nm0 := if (mapFind g.nextMap n1).isNone then g.nextMap ++ [(n1, [])]
               else g.nextMap
    let pm0 := if (mapFind g.prevMap n2).isNone then g.prevMap ++ [(n2, [])]
               else g.prevMap
    (true, { g with nextMap := mapPush nm0 n1 n2,
                    prevMap := mapPush pm0 n2 n1,
                    toposort := [] })

/-- Embeds `vargas::Graph::finalize` (graph.cpp lines 150-152): the live code
adopts the insertion order as the topological order and returns immediately;
the depth-first sort further down in the function body is unreachable. -/
def Graph.finalize (g : Graph) : Graph :=
  { g with toposort := g.addOrder }

/-- Errors the embedded graph code can raise. -/
inductive GError where
  | cycleDetected       -- `std::domain_error("Graph contains a cycle.")`
  | invalidDerivation   -- `std::invalid_argument` for a missing root
  | fuelOut             -- a C++ loop that would not have terminated
deriving Repr, DecidableEq

/-- State threaded through `Graph::_visit` (graph.cpp lines 201-218):
the three colour sets and the post-order output. -/
structure VisitState where
  unmarked : List Int
  temp : List Int
  perm : List Int
  topo : List Int
deriving Repr, DecidableEq

/-- Embeds `vargas::Graph::_visit` (graph.cpp lines 201-218), iterated over a
work list of node ids.  Re-entering a `temp` node raises `cycleDetected`;
an `unmarked` node moves to `temp`, its successors are visited, then it moves
to `perm` and is emitted; any other node is skipped.  `fuel` bounds the
recursion depth of the C++ code, which is unbounded. -/
def visitMany (g : Graph) : Nat → List Int → VisitState → Except GError VisitState
  | 0, _, _ => .error .fuelOut
  | _ + 1, [], st => .ok st
  | fuel + 1, n :: rest, st =>
    if st.temp.contains n then .error .cycleDetected
    else if st.unmarked.contains n then
      let st1 : VisitState :=
        { st with unmarked := st.unmarked.erase n, temp := st.temp ++ [n] }
      match visitMany g fuel ((mapFind g.nextMap n).getD []) st1 with
      | .error e => .error e
      | .ok st2 =>
        visitMany g fuel rest
          { st2 with temp := st2.temp.erase n,
                     perm := st2.perm ++ [n],
                     topo := st2.topo ++ [n] }
    else visitMany g fuel rest st

/-- Inserts into a sorted list, keeping it ascending. -/
def sortedInsert (x : Int) : List Int → List Int
  | [] => [x]
  | y :: t => if x ≤ y then x :: y :: t else y :: sortedInsert x t

/-- Sorts ascending, modelling the iteration order of a `std::set<long>`. -/
def sortAsc (l : List Int) : List Int := l.foldr sortedInsert []

/-- Embeds the unreachable depth-first part of `Graph::finalize`
(graph.cpp lines 159-168): nodes with any adjacency start `unmarked`
(`std::set` iterates in ascending order, so the work loop always takes the
least remaining element), each is visited, and the emitted post-order is
reversed. -/
def dfsToposort (g : Graph) (fuel : Nat) : Except GError (List Int) :=
  let unmarked := sortAsc ((g.idMap.map Prod.fst).filter
    (fun k => (mapFind g.nextMap k).isSome ∨ (mapFind g.prevMap k).isSome))
  match visitMany g fuel unmarked { unmarked := unmarked, temp := [], perm := [], topo := [] } with
  | .error e => .error e
  | .ok st => .ok st.topo.reverse

/-! ## TopologicalIter (graph.h lines 198-239) -/

/-- Embeds `vargas::Graph::TopologicalIter`: a graph reference and an index. -/
structure TopologicalIter where
  graph : Graph
  idx : Int
deriving Repr

/-- Embeds `TopologicalIter::operator==` (graph.h lines 210-214): iterators
over distinct topological orders compare unequal, otherwise indices decide. -/
def iterEq (a b : TopologicalIter) : Bool :=
  if b.graph.toposort ≠ a.graph.toposort then false
  else decide (a.idx = b.idx)

/-- Embeds `TopologicalIter::operator!=` (graph.h lines 216-218): compares
only the indices. -/
def iterNe (a b : TopologicalIter) : Bool :=
  decide (a.idx ≠ b.idx)

/-! ## Derived graphs (graph.cpp lines 24-147) -/

/-- Embeds the node-selection loop of the haplotype-filter constructor
`Graph::Graph(const Graph&, const std::vector<bool>&)` (graph.cpp lines
37-66): the true indices of the filter are collected, and a node is kept as
soon as `belongs(i)` is truthy for one collected index `i`.  Returns the kept
ids in `_IDMap` order. -/
def includedIdsFilter (g : Graph) (filter : List Bool) : List Int :=
  let indexes := (List.range filter.length).filter (fun i => filter.getD i false)
  (g.idMap.filter (fun p => indexes.any (fun i => p.2.belongs i ≠ 0))).map Prod.fst

/-- Embeds `Graph::_build_derived_edges` (graph.cpp lines 130-147) on a graph
whose `_IDMap` was already shared from the parent: for every included node,
every parent successor that is also included is added with `add_edge`; then
the parent root must itself be included, else the constructor throws. -/
def buildDerivedEdges (parent : Graph) (included : List Int) (h0 : Graph) :
    Except GError Graph :=
  let g1 := included.foldl
    (fun acc nid =>
      ((mapFind parent.nextMap nid).getD []).foldl
        (fun acc2 e => if included.contains e then (acc2.add_edge nid e).2 else acc2)
        acc)
    h0
  if included.contains parent.root then .ok { g1 with root := parent.root }
  else .error .invalidDerivation

/-- Embeds the trailing steps shared by both derivation constructors
(graph.cpp lines 70-73 / 122-125 and the final `finalize()`): `_add_order`
is the parent's order restricted to the included ids, then the graph is
finalized. -/
def finishDerived (parent : Graph) (included : List Int) (g1 : Graph) : Graph :=
  Graph.finalize
    { g1 with addOrder := parent.addOrder.filter (fun id => included.contains id) }

/-- Embeds `Graph::Graph(const Graph&, const std::vector<bool>&)` (graph.cpp
lines 24-83) end to end; a thrown `std::invalid_argument` becomes `.error`. -/
def deriveFilter (g : Graph) (filter : List Bool) : Except GError Graph :=
  let included := includedIdsFilter g filter
  let h0 : Graph := { idMap := g.idMap, popSize := g.popSize }
  match buildDerivedEdges g included h0 with
  | .error e => .error e
  | .ok g1 => .ok (finishDerived g included g1)

/-- Allele frequency of a node id, as used by the MAXAF walk
(`(*g._IDMap).at(id)->freq()`, graph.cpp line 112). -/
def freqOf (g : Graph) (id : Int) : Rat :=
  match alookup g.idMap id with
  | some n => n.af
  | none => 1

/-- Embeds the inner maximum scan of the MAXAF walk (graph.cpp lines
108-114): start from the first adjacency entry and replace it only on a
strictly greater frequency. -/
def chooseMax (g : Graph) (first : Int) (rest : List Int) : Int :=
  rest.foldl (fun maxid id => if freqOf g id > freqOf g maxid then id else maxid)
    first

/-- Embeds the `while (true)` walk of the MAXAF constructor (graph.cpp lines
103-116) as the list of visited node ids.  The C++ loop terminates on every
acyclic graph after at most `|nodes|` steps, so any `fuel` of at least
`|nodes| + 1` reproduces it there; `fuel` running out models divergence. -/
def maxafWalk (g : Graph) : Nat → Int → List Int
  | 0, _ => []
  | fuel + 1, curr =>
    match mapFind g.nextMap curr with
    | none => [curr]
    | some [] => [curr]
    | some (h :: t) => curr :: maxafWalk g fuel (chooseMax g h t)

/-- The key set of the `includedNodes` map built by the MAXAF walk: ids in
first-visit order, duplicates collapsed as `unordered_map` insertion does. -/
def maxafIncludedIds (g : Graph) (fuel : Nat) : List Int :=
  (maxafWalk g fuel g.root).foldl
    (fun s x => if s.contains x then s else s ++ [x]) []

/-- Embeds the MAXAF branch of `Graph::Graph(const Graph&, Type)` (graph.cpp
lines 86-127). -/
def deriveMAXAF (g : Graph) (fuel : Nat) : Except GError Graph :=
  let included := maxafIncludedIds g fuel
  let h0 : Graph := { idMap := g.idMap, popSize := g.popSize }
  match buildDerivedEdges g included h0 with
  | .error e => .error e
  | .ok g1 => .ok (finishDerived g included g1)

/-! ## GraphManager populations (gdef.cpp lines 169-231) -/

/-- A `Graph::Population` (a `dyn_bitset`) as a width-indexed list of bits. -/
def popAnd (a b : List Bool) : List Bool := List.zipWith and a b

/-- Bitwise or of two populations. -/
def popOr (a b : List Bool) : List Bool := List.zipWith or a b

/-- Bitwise complement within the bitset width. -/
def popNot (a : List Bool) : List Bool := a.map not

/-- Sets bit `i` (`Population::set(i)`). -/
def popSet (a : List Bool) (i : Nat) : List Bool := a.set i true

/-- Population count (`Population::count()`). -/
def popCount (a : List Bool) : Nat := a.count true

/-- Embeds the rejection-sampling loop of `GraphManager::write` (gdef.cpp
lines 218-226): draw `r = rand() % avail.size()`, skip already-added bits,
set fresh ones until `needed` bits are chosen.  `rnd t` supplies the value of
the `t`-th `rand()` call; `fuel` bounds the unbounded C++ loop. -/
def sampleLoop (rnd : Nat → Nat) (avail : List Nat) :
    Nat → Nat → Nat → List Nat → List Bool → Option (List Bool)
  | 0, _, _, _, _ => none
  | _ + 1, _, 0, _, pop => some pop
  | fuel + 1, t, needed + 1, added, pop =>
    let r := rnd t % avail.length
    let x := avail.getD r 0
    if added.contains x then sampleLoop rnd avail fuel (t + 1) (needed + 1) added pop
    else sampleLoop rnd avail fuel (t + 1) needed (x :: added) (popSet pop x)

/-- Embeds one definition's population sampling in `GraphManager::write`
(gdef.cpp lines 203-226): reject a count above the parent's popcount
(the `InsufficientPopulation` throw), collect the parent's set-bit indices
into `avail_set`, and run the sampling loop on a fresh all-zero population. -/
def samplePopulation (rnd : Nat → Nat) (parent : List Bool) (count : Nat)
    (fuel : Nat) : Option (List Bool) :=
  if count > popCount parent then none
  else
    let avail := (List.range parent.length).filter (fun j => parent.getD j false)
    sampleLoop rnd avail fuel 0 count [] (List.replicate parent.length false)

/-- Embeds the auto-generated negation sibling (gdef.cpp lines 229-230):
`~pop & populations.at(parent)`. -/
def negationSibling (parent pop : List Bool) : List Bool :=
  popAnd (popNot pop) parent

/-! ## Concrete graphs used as test inputs -/

/-- Builds a node with the given id, reference flag, allele frequency and
haplotype bits, as the doctest cases in graph.h do. -/
def mkNode (id : Int) (ref : Bool) (af : Rat) (ind : List Bool) : Node :=
  { id := id, ref := ref, af := af, individuals := ind }

/-- The three-node cyclic graph of spec scenario 6: edges a->b, b->c, c->a. -/
def cycleGraph : Graph :=
  let g0 := (Graph.add_node {} (mkNode 0 true 1 [])).2
  let g1 := (g0.add_node (mkNode 1 true 1 [])).2
  let g2 := (g1.add_node (mkNode 2 true 1 [])).2
  let g3 := (g2.add_edge 0 1).2
  let g4 := (g3.add_edge 1 2).2
  (g4.add_edge 2 0).2

/-- Two nodes inserted in order 0, 1 with the single back edge 1 -> 0. -/
def backEdgeGraph : Graph :=
  let g0 := (Graph.add_node {} (mkNode 0 true 1 [])).2
  let g1 := (g0.add_node (mkNode 1 true 1 [])).2
  (g1.add_edge 1 0).2

/-- Two nodes inserted in order 0, 1 with the single forward edge 0 -> 1. -/
def chainGraph : Graph :=
  let g0 := (Graph.add_node {} (mkNode 0 true 1 [])).2
  let g1 := (g0.add_node (mkNode 1 true 1 [])).2
  (g1.add_edge 0 1).2

/-- A graph holding one reference node (its root). -/
def singleRefGraph : Graph := (Graph.add_node {} (mkNode 0 true 1 [])).2

/-- A second finalized single-node graph whose topological order, `[5]`,
differs from `singleRefGraph`'s. -/
def otherGraph : Graph := Graph.finalize (Graph.add_node {} (mkNode 5 true 1 [])).2

/-- Diamond with a shortcut: root 0 points to 1 (af 3/5) and 2 (af 2/5),
and 1 also points to 2.  The MAXAF walk is 0, 1, 2, yet the parent edge
0 -> 2 survives into the derived graph. -/
def shortcutGraph : Graph :=
  let g0 := (Graph.add_node {} (mkNode 0 true 1 [])).2
  let g1 := (g0.add_node (mkNode 1 false (mkRat 3 5) [true])).2
  let g2 := (g1.add_node (mkNode 2 false (mkRat 2 5) [true])).2
  let g3 := (g2.add_edge 0 1).2
  let g4 := (g3.add_edge 0 2).2
  (g4.add_edge 1 2).2

/-- The graph the haplotype-filter derivation produces from
`singleRefGraph` with filter `[true]` (used as a witness input). -/
def filteredSingle : Graph :=
  ((deriveFilter singleRefGraph [true]).toOption).getD {}

/-! ## Association-list lemmas -/

theorem alookup_append {α : Type} (m m2 : List (Int × α)) (j : Int) :
    alookup (m ++ m2) j = ((alookup m j).map some).getD (alookup m2 j) := by
  induction m with
  | nil => simp [alookup]
  | cons p m ih =>
    by_cases hp : p.1 = j <;> simp [alookup, hp, ih]

theorem mapFind_append_entry (m : List (Int × List Int)) (k : Int) (x : List Int)
    (j : Int) :
    mapFind (m ++ [(k, x)]) j =
      if j = k then some ((mapFind m j).getD x) else mapFind m j := by
  show alookup (m ++ [(k, x)]) j = _
  rw [alookup_append]
  by_cases hj : j = k
  · subst hj
    rcases h : alookup m j with _ | l <;> simp [mapFind, alookup, h]
  · have hkj : ¬ k = j := fun hc => hj hc.symm
    rcases h : alookup m j with _ | l <;> simp [mapFind, alookup, h, hj, hkj]

theorem mapFind_push (m : List (Int × List Int)) (k v : Int) (j : Int) :
    mapFind (mapPush m k v) j =
      if j = k then (mapFind m j).map (· ++ [v]) else mapFind m j := by
  induction m with
  | nil => by_cases hj : j = k <;> simp [mapFind, mapPush, alookup, hj]
  | cons p m ih =>
    simp only [mapFind, mapPush] at ih ⊢
    by_cases hpk : p.1 = k
    · by_cases hj : j = k
      · subst hj; simp [alookup, hpk, ih]
      · have hpj : ¬ p.1 = j := by rw [hpk]; intro hc; exact hj hc.symm
        have hkj : ¬ k = j := fun hc => hj hc.symm
        simp [alookup, hpk, hpj, ih, hj, hkj]
    · by_cases hpj : p.1 = j
      · have hj : ¬ j = k := by rw [← hpj]; exact hpk
        simp [alookup, hpk, hpj, ih, hj]
      · simp [alookup, hpk, hpj, ih]

theorem mapEntryAppend (m : List (Int × List Int)) (u v : Int) :
    mapFind (mapPush (if (mapFind m u).isNone then m ++ [(u, [])] else m) u v) u
      = some ((mapFind m u).getD [] ++ [v])
    ∧ ∀ k, k ≠ u →
      mapFind (mapPush (if (mapFind m u).isNone then m ++ [(u, [])] else m) u v) k
        = mapFind m k := by
  by_cases h : (mapFind m u).isNone
  · rw [if_pos h]
    have hm : mapFind m u = none := Option.isNone_iff_eq_none.mp h
    refine ⟨?_, ?_⟩
    · simp [mapFind_push, mapFind_append_entry, hm]
    · intro k hk
      rw [mapFind_push, if_neg hk, mapFind_append_entry, if_neg hk]
  · rw [if_neg h]
    rcases h' : mapFind m u with _ | l
    · rw [h'] at h; simp at h
    · refine ⟨?_, ?_⟩
      · simp [mapFind_push, h']
      · intro k hk; rw [mapFind_push, if_neg hk]

theorem add_edge_effects (g : Graph) (u v : Int) :
    (((alookup g.idMap u).isNone ∨ (alookup g.idMap v).isNone) →
        g.add_edge u v = (false, g))
    ∧ ((alookup g.idMap u).isSome → (alookup g.idMap v).isSome →
        (g.add_edge u v).1 = true
        ∧ mapFind (g.add_edge u v).2.nextMap u
            = some ((mapFind g.nextMap u).getD [] ++ [v])
        ∧ mapFind (g.add_edge u v).2.prevMap v
            = some ((mapFind g.prevMap v).getD [] ++ [u])
        ∧ (∀ k, k ≠ u → mapFind (g.add_edge u v).2.nextMap k = mapFind g.nextMap k)
        ∧ (∀ k, k ≠ v → mapFind (g.add_edge u v).2.prevMap k = mapFind g.prevMap k)
        ∧ (g.add_edge u v).2.toposort = []
        ∧ (g.add_edge u v).2.idMap = g.idMap
        ∧ (g.add_edge u v).2.addOrder = g.addOrder
        ∧ (g.add_edge u v).2.root = g.root) := by
  constructor
  · intro h
    unfold Graph.add_edge
    rw [if_pos h]
  · intro hu hv
    have hcond : ¬ ((alookup g.idMap u).isNone ∨ (alookup g.idMap v).isNone) := by
      intro hc
      rcases hc with hc | hc
      · rw [Option.isNone_iff_eq_none] at hc; rw [hc] at hu; simp at hu
      · rw [Option.isNone_iff_eq_none] at hc; rw [hc] at hv; simp at hv
    unfold Graph.add_edge
    rw [if_neg hcond]
    refine ⟨rfl, ?_, ?_, ?_, ?_, rfl, rfl, rfl, rfl⟩
    · exact (mapEntryAppend g.nextMap u v).1
    · exact (mapEntryAppend g.prevMap v u).1
    · exact fun k hk => (mapEntryAppend g.nextMap u v).2 k hk
    · exact fun k hk => (mapEntryAppend g.prevMap v u).2 k hk

/-- C7: `add_edge(u, v)` with a missing endpoint returns false and leaves the
graph completely unchanged; with both endpoints present it appends `v` to
`next[u]` and `u` to `prev[v]`, touches no other adjacency entry, leaves the
node map, insertion order and root alone, clears the cached topological
order, and returns true. -/
theorem add_edge_spec (g : Graph) (u v : Int) :
    (((alookup g.idMap u).isNone ∨ (alookup g.idMap v).isNone) →
        g.add_edge u v = (false, g))
    ∧ ((alookup g.idMap u).isSome → (alookup g.idMap v).isSome →
        (g.add_edge u v).1 = true
        ∧ mapFind (g.add_edge u v).2.nextMap u
            = some ((mapFind g.nextMap u).getD [] ++ [v])
        ∧ mapFind (g.add_edge u v).2.prevMap v
            = some ((mapFind g.prevMap v).getD [] ++ [u])
        ∧ (∀ k, k ≠ u → mapFind (g.add_edge u v).2.nextMap k = mapFind g.nextMap k)
        ∧ (∀ k, k ≠ v → mapFind (g.add_edge u v).2.prevMap k = mapFind g.prevMap k)
        ∧ (g.add_edge u v).2.toposort = []
        ∧ (g.add_edge u v).2.idMap = g.idMap
        ∧ (g.add_edge u v).2.addOrder = g.addOrder
        ∧ (g.add_edge u v).2.root = g.root) :=
  add_edge_effects g u v

/-- Witness for C7: on the empty graph the edge insertion fails and mutates
nothing; on `chainGraph`'s two nodes before any edge existed, appending edge
0 -> 1 creates `next[0] = [1]` and `prev[1] = [0]`. -/
theorem add_edge_spec_witness :
    Graph.add_edge {} 0 1 = (false, ({} : Graph))
    ∧ mapFind (chainGraph.add_edge 0 1).2.nextMap 0
        = some ((mapFind chainGraph.nextMap 0).getD [] ++ [1]) := by
  constructor
  · exact (add_edge_spec {} 0 1).1 (Or.inl (by decide))
  · exact ((add_edge_spec chainGraph 0 1).2 (by decide) (by decide)).2.1

/-- C8: `add_node(n)` returns the sentinel 0 and leaves the graph untouched
when the id is already present; otherwise it returns `n`'s id, appends a copy
of the node to the node map, records insertion order, takes `n` as the root
exactly when no root was set yet (as on a fresh graph, whose root is -1),
and changes nothing else. -/
theorem add_node_spec (g : Graph) (n : Node) :
    ((alookup g.idMap n.id).isSome → g.add_node n = (0, g))
    ∧ ((alookup g.idMap n.id).isNone →
        (g.add_node n).1 = n.id
        ∧ (g.add_node n).2.idMap = g.idMap ++ [(n.id, n)]
        ∧ (g.add_node n).2.addOrder = g.addOrder ++ [n.id]
        ∧ (g.add_node n).2.root = (if g.root < 0 then n.id else g.root)
        ∧ (g.add_node n).2.nextMap = g.nextMap
        ∧ (g.add_node n).2.prevMap = g.prevMap
        ∧ (g.add_node n).2.toposort = g.toposort
        ∧ (({} : Graph).root < 0)) := by
  constructor
  · intro h
    unfold Graph.add_node
    rw [if_pos h]
  · intro h
    have hcond : ¬ (alookup g.idMap n.id).isSome := by
      rw [Option.isNone_iff_eq_none] at h; rw [h]; simp
    unfold Graph.add_node
    rw [if_neg hcond]
    by_cases hr : g.root < 0 <;> simp [hr]

/-- Witness for C8: inserting id 0 into the single-node graph that already
holds id 0 returns the sentinel and changes nothing; inserting a fresh node
into the empty graph returns its id and makes it the root. -/
theorem add_node_spec_witness :
    singleRefGraph.add_node (mkNode 0 true 1 []) = (0, singleRefGraph)
    ∧ (Graph.add_node {} (mkNode 7 true 1 [])).2.root
        = (if ({} : Graph).root < 0 then (7 : Int) else ({} : Graph).root) := by
  constructor
  · exact (add_node_spec singleRefGraph (mkNode 0 true 1 [])).1 (by decide)
  · exact ((add_node_spec {} (mkNode 7 true 1 [])).2 (by decide)).2.2.2.1

/-- C10: `GraphBuilder::ingroup(percent)` silently ignores values below 0 or
above 100, keeping the previous configuration, whose default is 100. -/
theorem ingroup_guard (b : GraphBuilderState) (p : Int) :
    ((p < 0 ∨ p > 100) → b.setIngroup p = b)
    ∧ ({} : GraphBuilderState).ingroupPercent = 100 := by
  constructor
  · intro h
    unfold GraphBuilderState.setIngroup
    rw [if_pos h]
  · rfl

/-- Witness for C10: percent 101 is ignored on the default builder. -/
theorem ingroup_guard_witness :
    GraphBuilderState.setIngroup {} 101 = {}
    ∧ ({} : GraphBuilderState).ingroupPercent = 100 :=
  ⟨(ingroup_guard {} 101).1 (Or.inr (by decide)), (ingroup_guard {} 101).2⟩

/-- C1: on the three-node cycle a->b, b->c, c->a, `finalize` does not fail:
it adopts the insertion order `[0, 1, 2]` as the topological order and
returns before reaching the depth-first sort, which is dead code; that dead
three-colour sort would indeed have raised the cycle error. -/
theorem finalize_ignores_cycle :
    cycleGraph.finalize.toposort = cycleGraph.addOrder
    ∧ cycleGraph.addOrder = [0, 1, 2]
    ∧ dfsToposort cycleGraph 20 = .error .cycleDetected :=
  ⟨rfl, rfl, rfl⟩

/-- Counterexample for C2: in a finalized graph with the back edge 1 -> 0
(nodes inserted in order 0, 1), the source of the edge does not come before
its target in the cached topological order. -/
theorem toposort_backedge_cex :
    (0 : Int) ∈ (mapFind backEdgeGraph.finalize.nextMap 1).getD []
    ∧ ¬ (backEdgeGraph.finalize.toposort.indexOf 1 <
         backEdgeGraph.finalize.toposort.indexOf 0) := by
  decide

/-- C2 amended: `finalize` publishes the insertion order itself as the
topological order, so an edge's endpoints are ordered in it exactly when the
source node was inserted before the target; the claimed invariant holds for
graphs whose edges all point from earlier to later insertions (as the
builder produces), not for every graph. -/
theorem finalize_insertion_order_spec (g : Graph) (u v : Int)
    (hedge : v ∈ (mapFind g.nextMap u).getD [])
    (hord : g.addOrder.indexOf u < g.addOrder.indexOf v) :
    g.finalize.toposort = g.addOrder
    ∧ g.finalize.toposort.indexOf u < g.finalize.toposort.indexOf v :=
  ⟨rfl, hord⟩

/-- Witness for C2 amended: the forward chain 0 -> 1. -/
theorem finalize_insertion_order_spec_witness :
    chainGraph.finalize.toposort = chainGraph.addOrder
    ∧ chainGraph.finalize.toposort.indexOf 0 <
        chainGraph.finalize.toposort.indexOf 1 :=
  finalize_insertion_order_spec chainGraph 0 1 (by decide) (by decide)

/-- Counterexample for C9: two iterators bound to the distinct topological
orders `[0]` and `[5]`, both at index 0: `operator==` returns false but
`operator!=` also returns false, against the claim that it returns true
regardless of the indices. -/
theorem iter_compare_cex :
    singleRefGraph.finalize.toposort ≠ otherGraph.toposort
    ∧ iterEq ⟨singleRefGraph.finalize, 0⟩ ⟨otherGraph, 0⟩ = false
    ∧ iterNe ⟨singleRefGraph.finalize, 0⟩ ⟨otherGraph, 0⟩ = false := by
  refine ⟨by decide, rfl, rfl⟩

/-- C9 amended: for iterators bound to distinct topological orders,
`operator==` returns false, but `operator!=` only compares the indices, so
it returns true exactly when the indices differ. -/
theorem iter_compare_spec (a b : TopologicalIter)
    (h : a.graph.toposort ≠ b.graph.toposort) :
    iterEq a b = false ∧ iterNe a b = decide (a.idx ≠ b.idx) := by
  constructor
  · unfold iterEq
    rw [if_pos (show b.graph.toposort ≠ a.graph.toposort from fun hc => h hc.symm)]
  · rfl

/-- Witness for C9 amended: iterators at indices 1 and 2 over the two
distinct single-node orders. -/
theorem iter_compare_spec_witness :
    iterEq ⟨singleRefGraph.finalize, 1⟩ ⟨otherGraph, 2⟩ = false
    ∧ iterNe ⟨singleRefGraph.finalize, 1⟩ ⟨otherGraph, 2⟩ = decide ((1 : Int) ≠ 2) :=
  iter_compare_spec ⟨singleRefGraph.finalize, 1⟩ ⟨otherGraph, 2⟩ (by decide)

theorem base_to_num_le (c : Char) : base_to_num c ≤ 4 := by
  unfold base_to_num
  split_ifs <;> omega

theorem num_base_roundtrip (x : Nat) (h : x ≤ 4) :
    base_to_num (num_to_base x) = x := by
  interval_cases x <;> decide

theorem num_to_base_mem (x : Nat) :
    num_to_base x = 'A' ∨ num_to_base x = 'C' ∨ num_to_base x = 'G'
    ∨ num_to_base x = 'T' ∨ num_to_base x = 'N' := by
  unfold num_to_base
  split_ifs <;> simp

/-- C6: the codec round-trips: `seq_to_num` after `num_to_seq` is the
identity on numeric sequences over 0..4; `num_to_seq` after `seq_to_num`
emits only upper-case A, C, G, T, N; and that composition is idempotent
after its first application. -/
theorem codec_spec :
    (∀ s : List Nat, (∀ x ∈ s, x ≤ 4) → seq_to_num (num_to_seq s) = s)
    ∧ (∀ s : List Char, ∀ c ∈ num_to_seq (seq_to_num s),
        c = 'A' ∨ c = 'C' ∨ c = 'G' ∨ c = 'T' ∨ c = 'N')
    ∧ (∀ s : List Char,
        num_to_seq (seq_to_num (num_to_seq (seq_to_num s)))
          = num_to_seq (seq_to_num s)) := by
  refine ⟨?_, ?_, ?_⟩
  · intro s h
    induction s with
    | nil => rfl
    | cons x t ih =>
      have hx := num_base_roundtrip x (h x (by simp))
      have ht := ih (fun y hy => h y (by simp [hy]))
      simp only [seq_to_num, num_to_seq, List.map_cons] at ht ⊢
      rw [hx, ht]
  · intro s c hc
    simp only [num_to_seq, seq_to_num, List.map_map, List.mem_map] at hc
    obtain ⟨x, _, hx⟩ := hc
    rw [← hx]
    exact num_to_base_mem (base_to_num x)
  · intro s
    induction s with
    | nil => rfl
    | cons x t ih =>
      have hx := num_base_roundtrip (base_to_num x) (base_to_num_le x)
      simp only [seq_to_num, num_to_seq, List.map_cons] at ih ⊢
      rw [hx]
      rw [ih]

/-- Witness for C6: the numeric alphabet round-trips on `[0,1,2,3,4]`. -/
theorem codec_spec_witness :
    seq_to_num (num_to_seq [0, 1, 2, 3, 4]) = [0, 1, 2, 3, 4] :=
  codec_spec.1 [0, 1, 2, 3, 4] (by decide)

theorem getD_popSet (a : List Bool) (x i : Nat) :
    (popSet a x).getD i false
      = if i = x ∧ x < a.length then true else a.getD i false := by
  induction a generalizing x i with
  | nil => simp [popSet]
  | cons a0 t ih =>
    cases x with
    | zero =>
      cases i with
      | zero => simp [popSet]
      | succ j => simp [popSet]
    | succ x =>
      cases i with
      | zero => simp [popSet, List.set]
      | succ j =>
        have := ih x j
        simp only [popSet, List.set, List.getD_cons_succ, List.length_cons] at this ⊢
        rw [this]
        by_cases h1 : j = x ∧ x < t.length
        · rw [if_pos h1, if_pos (by omega)]
        · rw [if_neg h1, if_neg (by omega)]

theorem getD_mem_of_lt {α : Type} (l : List α) (r : Nat) (d : α)
    (h : r < l.length) : l.getD r d ∈ l := by
  induction l generalizing r with
  | nil => simp at h
  | cons a t ih =>
    cases r with
    | zero => simp
    | succ r =>
      simp only [List.getD_cons_succ]
      exact List.mem_cons_of_mem _ (ih r (by simpa using h))

theorem getD_replicate_false (n i : Nat) :
    (List.replicate n false).getD i false = false := by
  induction n generalizing i with
  | zero => simp
  | succ n ih =>
    cases i with
    | zero => simp [List.replicate]
    | succ j => simp [List.replicate, ih j]

theorem sampleLoop_sub (rnd : Nat → Nat) (avail : List Nat) (parent : List Bool)
    (hav : ∀ x ∈ avail, parent.getD x false = true) (hne : avail ≠ []) :
    ∀ (fuel t needed : Nat) (added : List Nat) (pop0 pop : List Bool),
      pop0.length = parent.length →
      (∀ i, pop0.getD i false = true → parent.getD i false = true) →
      sampleLoop rnd avail fuel t needed added pop0 = some pop →
      pop.length = parent.length ∧
      (∀ i, pop.getD i false = true → parent.getD i false = true) := by
  intro fuel
  induction fuel with
  | zero =>
    intro t needed added pop0 pop _ _ h
    simp [sampleLoop] at h
  | succ fuel ih =>
    intro t needed added pop0 pop hlen hsub h
    cases needed with
    | zero =>
      rw [sampleLoop] at h
      cases h
      exact ⟨hlen, hsub⟩
    | succ m =>
      rw [sampleLoop] at h
      by_cases hadd : added.contains (avail.getD (rnd t % avail.length) 0)
      · rw [if_pos hadd] at h
        exact ih (t + 1) (m + 1) added pop0 pop hlen hsub h
      · rw [if_neg hadd] at h
        have hr : rnd t % avail.length < avail.length :=
          Nat.mod_lt _ (List.length_pos.mpr hne)
        have hx : avail.getD (rnd t % avail.length) 0 ∈ avail :=
          getD_mem_of_lt avail _ 0 hr
        refine ih (t + 1) m _ _ pop ?_ ?_ h
        · simp [popSet, hlen]
        · intro i hi
          rw [getD_popSet] at hi
          by_cases hc : i = avail.getD (rnd t % avail.length) 0
              ∧ avail.getD (rnd t % avail.length) 0 < pop0.length
          · rcases hc with ⟨hieq, _⟩
            rw [hieq]
            exact hav _ hx
          · rw [if_neg hc] at hi
            exact hsub i hi

theorem samplePopulation_sub (rnd : Nat → Nat) (parent : List Bool)
    (count fuel : Nat) (pop : List Bool)
    (h : samplePopulation rnd parent count fuel = some pop) :
    pop.length = parent.length ∧
    (∀ i, pop.getD i false = true → parent.getD i false = true) := by
  unfold samplePopulation at h
  by_cases hc : count > popCount parent
  · rw [if_pos hc] at h; cases h
  · rw [if_neg hc] at h
    cases count with
    | zero =>
      cases fuel with
      | zero => simp [sampleLoop] at h
      | succ fuel =>
        rw [sampleLoop] at h
        cases h
        refine ⟨by simp, ?_⟩
        intro i hi
        rw [getD_replicate_false] at hi
        cases hi
    | succ m =>
      have hav : ∀ x ∈ (List.range parent.length).filter
          (fun j => parent.getD j false), parent.getD x false = true := by
        intro x hx
        exact (List.mem_filter.mp hx).2
      have hpos : 0 < popCount parent := by
        omega
      have hne : (List.range parent.length).filter
          (fun j => parent.getD j false) ≠ [] := by
        intro hnil
        have hall := List.filter_eq_nil_iff.mp hnil
        have : parent.count true = 0 := by
          rw [List.count_eq_zero]
          intro hmem
          obtain ⟨k, hget⟩ := List.mem_iff_get.mp hmem
          have hklt : (k : Nat) < parent.length := k.isLt
          have hgd : parent.getD (k : Nat) false = true := by
            rw [List.getD_eq_getElem?_getD, List.getElem?_eq_getElem hklt]
            simpa using hget
          exact absurd hgd (by simpa using hall (k : Nat) (List.mem_range.mpr hklt))
        unfold popCount at hpos
        omega
      exact sampleLoop_sub rnd _ parent hav hne fuel 0 (m + 1) [] _ pop
        (by simp) (fun i hi => absurd hi (by simp [getD_replicate_false])) h

theorem negation_getD (a b : List Bool) (hlen : a.length = b.length) :
    ∀ i, (popAnd (popNot a) b).getD i false
      = (b.getD i false && !(a.getD i false)) := by
  induction a generalizing b with
  | nil =>
    cases b with
    | nil => intro i; simp [popAnd, popNot]
    | cons b0 t => simp at hlen
  | cons a0 s ih =>
    cases b with
    | nil => simp at hlen
    | cons b0 t =>
      intro i
      cases i with
      | zero => cases a0 <;> cases b0 <;> rfl
      | succ j =>
        simp only [popAnd, popNot, List.map_cons, List.zipWith_cons_cons,
          List.getD_cons_succ]
        exact ih t (by simpa using hlen) j

theorem negation_disjoint (a b : List Bool) (hlen : a.length = b.length) :
    popAnd a (popAnd (popNot a) b) = List.replicate b.length false := by
  induction a generalizing b with
  | nil =>
    cases b with
    | nil => rfl
    | cons b0 t => simp at hlen
  | cons a0 s ih =>
    cases b with
    | nil => simp at hlen
    | cons b0 t =>
      have hhead : (a0 && (!a0 && b0)) = false := by cases a0 <;> cases b0 <;> rfl
      simp only [popAnd, popNot, List.map_cons, List.zipWith_cons_cons,
        List.length_cons, List.replicate_succ, hhead, List.cons.injEq, true_and]
      exact ih t (by simpa using hlen)

theorem negation_restore (a b : List Bool) (hlen : a.length = b.length)
    (hsub : ∀ i, a.getD i false = true → b.getD i false = true) :
    popOr a (popAnd (popNot a) b) = b := by
  induction a generalizing b with
  | nil =>
    cases b with
    | nil => rfl
    | cons b0 t => simp at hlen
  | cons a0 s ih =>
    cases b with
    | nil => simp at hlen
    | cons b0 t =>
      have hhead : (a0 || (!a0 && b0)) = b0 := by
        cases ha : a0
        · cases b0 <;> rfl
        · have := hsub 0 (by simpa using ha)
          simp only [List.getD_cons_zero] at this
          rw [this]
          rfl
      simp only [popOr, popAnd, popNot, List.map_cons, List.zipWith_cons_cons,
        hhead, List.cons.injEq, true_and]
      exact ih t (by simpa using hlen) (fun i hi => hsub (i + 1) (by simpa using hi))

/-- C5: whenever the sampling step of `GraphManager::write` succeeds with a
child population drawn from a parent, the auto-generated negation sibling
`~pop & parent` equals the parent with the child's bits removed (pointwise),
the child and the sibling are bit-disjoint, and their bitwise or restores the
parent exactly. -/
theorem write_negation_partition (rnd : Nat → Nat) (parent : List Bool)
    (count fuel : Nat) (pop : List Bool)
    (h : samplePopulation rnd parent count fuel = some pop) :
    (∀ i, (negationSibling parent pop).getD i false
        = (parent.getD i false && !(pop.getD i false)))
    ∧ popAnd pop (negationSibling parent pop)
        = List.replicate parent.length false
    ∧ popOr pop (negationSibling parent pop) = parent := by
  obtain ⟨hlen, hsub⟩ := samplePopulation_sub rnd parent count fuel pop h
  refine ⟨?_, ?_, ?_⟩
  · intro i
    exact negation_getD pop parent hlen i
  · unfold negationSibling
    rw [negation_disjoint pop parent hlen]
  · exact negation_restore pop parent hlen hsub

/-- Witness for C5: drawing 2 bits from the 3-bit-parent `1101` with the
deterministic random stream 0, 1, 2, ... picks bits 0 and 1; the negation
sibling is `0001`, disjoint from the child, and their or is the parent. -/
theorem write_negation_partition_witness :
    (∀ i, (negationSibling [true, true, false, true] [true, true, false, false]).getD i false
        = (([true, true, false, true].getD i false)
            && !([true, true, false, false].getD i false)))
    ∧ popAnd [true, true, false, false]
        (negationSibling [true, true, false, true] [true, true, false, false])
        = List.replicate ([true, true, false, true] : List Bool).length false
    ∧ popOr [true, true, false, false]
        (negationSibling [true, true, false, true] [true, true, false, false])
        = [true, true, false, true] :=
  write_negation_partition (fun t => t) [true, true, false, true] 2 5
    [true, true, false, false] (by decide)

/-- Counterexample for C4: in `shortcutGraph` the MAXAF walk is 0, 1, 2
(node 1 wins over node 2 at the root by frequency 3/5 > 2/5), yet the parent
shortcut edge 0 -> 2 is rebuilt as well, so node 0 of the derived graph has
two successors and the result is not a simple path. -/
theorem maxaf_not_path_cex :
    maxafWalk shortcutGraph 10 shortcutGraph.root = [0, 1, 2]
    ∧ (deriveMAXAF shortcutGraph 10).toOption.map
        (fun h => (mapFind h.nextMap 0).getD []) = some [1, 2] := by
  constructor
  · decide
  · decide

theorem mem_foldl_insertDedup (l s : List Int) (x : Int) :
    x ∈ l.foldl (fun s y => if s.contains y then s else s ++ [y]) s
      ↔ x ∈ s ∨ x ∈ l := by
  induction l generalizing s with
  | nil => simp
  | cons a t ih =>
    simp only [List.foldl_cons]
    by_cases ha : s.contains a
    · rw [if_pos ha, ih]
      have hmem : a ∈ s := by simpa using ha
      simp only [List.mem_cons]
      constructor
      · tauto
      · rintro (h | h | h) <;> first | tauto | exact Or.inl (h ▸ hmem)
    · rw [if_neg ha, ih]
      simp only [List.mem_append, List.mem_cons, List.not_mem_nil, or_false,
        List.mem_singleton]
      tauto

theorem chooseMax_cons (g : Graph) (first a : Int) (t : List Int) :
    chooseMax g first (a :: t)
      = chooseMax g (if freqOf g a > freqOf g first then a else first) t := rfl

theorem chooseMax_split (g : Graph) (rest : List Int) : ∀ (first : Int),
    ∃ l₁ l₂, first :: rest = l₁ ++ chooseMax g first rest :: l₂
      ∧ (∀ y ∈ l₁, freqOf g y < freqOf g (chooseMax g first rest))
      ∧ (∀ y ∈ l₂, freqOf g y ≤ freqOf g (chooseMax g first rest)) := by
  induction rest with
  | nil =>
    intro first
    exact ⟨[], [], rfl, by simp, by simp⟩
  | cons a t ih =>
    intro first
    rw [chooseMax_cons]
    by_cases hfa : freqOf g a > freqOf g first
    · rw [if_pos hfa]
      obtain ⟨l₁, l₂, hsplit, hlt, hle⟩ := ih a
      have hmax_a : freqOf g a ≤ freqOf g (chooseMax g a t) := by
        cases l₁ with
        | nil =>
          have : a = chooseMax g a t := by
            simpa using congrArg (fun l => l.headD 0) hsplit
          rw [← this]
        | cons p q =>
          have hp : a = p := by
            simpa using congrArg (fun l => l.headD 0) hsplit
          have hplt := hlt p (by simp)
          rw [← hp] at hplt
          exact le_of_lt hplt
      refine ⟨first :: l₁, l₂, ?_, ?_, hle⟩
      · simpa using hsplit
      · intro y hy
        rcases List.mem_cons.mp hy with hy | hy
        · exact hy ▸ lt_of_lt_of_le hfa hmax_a
        · exact hlt y hy
    · rw [if_neg hfa]
      have hle_af : freqOf g a ≤ freqOf g first := not_lt.mp hfa
      obtain ⟨l₁, l₂, hsplit, hlt, hle⟩ := ih first
      cases l₁ with
      | nil =>
        have hhead : first = chooseMax g first t := by
          simpa using congrArg (fun l => l.headD 0) hsplit
        have htail : t = l₂ := by
          simpa using congrArg List.tail hsplit
        refine ⟨[], a :: t, ?_, by simp, ?_⟩
        · simpa using hhead
        · intro y hy
          rcases List.mem_cons.mp hy with hy | hy
          · rw [hy]
            exact hle_af.trans (le_of_eq (by rw [← hhead]))
          · exact hle y (htail ▸ hy)
      | cons p q =>
        have hp : first = p := by
          simpa using congrArg (fun l => l.headD 0) hsplit
        have htail : t = q ++ chooseMax g first t :: l₂ := by
          simpa using congrArg List.tail hsplit
        have hfirst_lt : freqOf g first < freqOf g (chooseMax g first t) := by
          have hplt := hlt p (by simp)
          rwa [← hp] at hplt
        refine ⟨first :: a :: q, l₂, ?_, ?_, hle⟩
        · simp only [List.cons_append]
          rw [← htail]
        · intro y hy
          rcases List.mem_cons.mp hy with hy | hy
          · exact hy ▸ hfirst_lt
          · rcases List.mem_cons.mp hy with hy | hy
            · exact hy ▸ lt_of_le_of_lt hle_af hfirst_lt
            · exact hlt y (List.mem_cons_of_mem _ hy)

/-- C4 amended: the MAXAF derivation includes exactly the nodes of the greedy
walk from the root, where each step selects a successor of maximal allele
frequency, the earliest in adjacency order among ties, and stops at a node
with no successors; but the derived graph rebuilds every parent edge between
included nodes, so it need not be a simple path (see the counterexample,
where a parent edge skipping a walk node survives). -/
theorem maxaf_walk_spec :
    (∀ (g : Graph) (fuel : Nat) (x : Int),
        x ∈ maxafIncludedIds g fuel ↔ x ∈ maxafWalk g fuel g.root)
    ∧ (∀ (g : Graph) (first : Int) (rest : List Int),
        ∃ l₁ l₂, first :: rest = l₁ ++ chooseMax g first rest :: l₂
          ∧ (∀ y ∈ l₁, freqOf g y < freqOf g (chooseMax g first rest))
          ∧ (∀ y ∈ l₂, freqOf g y ≤ freqOf g (chooseMax g first rest))) := by
  constructor
  · intro g fuel x
    unfold maxafIncludedIds
    rw [mem_foldl_insertDedup]
    simp
  · intro g first rest
    exact chooseMax_split g rest first

theorem alookup_isSome_of_mem {α : Type} (m : List (Int × α)) (k : Int) (a : α)
    (h : (k, a) ∈ m) : (alookup m k).isSome := by
  induction m with
  | nil => cases h
  | cons p t ih =>
    by_cases hp : p.1 = k
    · simp [alookup, hp]
    · rcases List.mem_cons.mp h with h | h
      · rw [← h] at hp; simp at hp
      · simpa [alookup, hp] using ih h

theorem mem_keys_nodup_unique {α : Type} (m : List (Int × α))
    (hN : (m.map Prod.fst).Nodup) (k : Int) (a b : α)
    (ha : (k, a) ∈ m) (hb : (k, b) ∈ m) : a = b := by
  induction m with
  | nil => cases ha
  | cons p t ih =>
    simp only [List.map_cons, List.nodup_cons] at hN
    rcases List.mem_cons.mp ha with ha | ha <;>
      rcases List.mem_cons.mp hb with hb | hb
    · have h2 : (k, a) = (k, b) := ha.trans hb.symm
      exact congrArg Prod.snd h2
    · exfalso
      exact hN.1 (ha ▸ (List.mem_map.mpr ⟨(k, b), hb, rfl⟩))
    · exfalso
      exact hN.1 (hb ▸ (List.mem_map.mpr ⟨(k, a), ha, rfl⟩))
    · exact ih hN.2 ha hb

theorem innerFold_spec (g : Graph) (included : List Int)
    (hinc : ∀ x ∈ included, (alookup g.idMap x).isSome)
    (nid : Int) (hnid : (alookup g.idMap nid).isSome) :
    ∀ (succs : List Int) (acc : Graph), acc.idMap = g.idMap →
      (succs.foldl (fun acc2 e =>
          if included.contains e then (acc2.add_edge nid e).2 else acc2) acc).idMap
        = g.idMap
      ∧ mapFind (succs.foldl (fun acc2 e =>
          if included.contains e then (acc2.add_edge nid e).2 else acc2) acc).nextMap nid
          = (if succs.filter (fun e => included.contains e) = []
             then mapFind acc.nextMap nid
             else some ((mapFind acc.nextMap nid).getD []
                 ++ succs.filter (fun e => included.contains e)))
      ∧ (∀ k, k ≠ nid →
          mapFind (succs.foldl (fun acc2 e =>
            if included.contains e then (acc2.add_edge nid e).2 else acc2) acc).nextMap k
            = mapFind acc.nextMap k) := by
  intro succs
  induction succs with
  | nil =>
    intro acc hacc
    exact ⟨hacc, by simp, fun k _ => rfl⟩
  | cons e rest ih =>
    intro acc hacc
    simp only [List.foldl_cons]
    by_cases he : included.contains e = true
    · rw [if_pos he]
      have hemem : e ∈ included := by simpa using he
      have hnid' : (alookup acc.idMap nid).isSome := by rw [hacc]; exact hnid
      have he' : (alookup acc.idMap e).isSome := by
        rw [hacc]; exact hinc e hemem
      obtain ⟨hret, hself, hprev, hothern, hotherp, htopo, hid, hord, hroot⟩ :=
        (add_edge_effects acc nid e).2 hnid' he'
      obtain ⟨ih1, ih2, ih3⟩ := ih (acc.add_edge nid e).2 (by rw [hid, hacc])
      have hfe : (e :: rest).filter (fun x => included.contains x)
          = e :: rest.filter (fun x => included.contains x) := by
        rw [List.filter_cons, if_pos he]
      refine ⟨ih1, ?_, ?_⟩
      · rw [ih2, hfe]
        rw [if_neg (List.cons_ne_nil _ _)]
        by_cases hrest : rest.filter (fun x => included.contains x) = []
        · rw [if_pos hrest, hself, hrest]
        · rw [if_neg hrest, hself]
          simp [List.append_assoc]
      · intro k hk
        rw [ih3 k hk, hothern k hk]
    · rw [if_neg he]
      obtain ⟨ih1, ih2, ih3⟩ := ih acc hacc
      have hfe : (e :: rest).filter (fun x => included.contains x)
          = rest.filter (fun x => included.contains x) := by
        rw [List.filter_cons, if_neg he]
      exact ⟨ih1, by rw [ih2, hfe], ih3⟩

theorem outerFold_spec (g : Graph) (included : List Int)
    (hinc : ∀ x ∈ included, (alookup g.idMap x).isSome) :
    ∀ (l : List Int) (acc : Graph), acc.idMap = g.idMap →
      (∀ x ∈ l, x ∈ included) → l.Nodup →
      (∀ k, k ∈ l → mapFind acc.nextMap k = none) →
      (l.foldl (fun a nid => ((mapFind g.nextMap nid).getD []).foldl
          (fun acc2 e => if included.contains e then (acc2.add_edge nid e).2 else acc2)
          a) acc).idMap = g.idMap
      ∧ (∀ k, k ∈ l →
          mapFind (l.foldl (fun a nid => ((mapFind g.nextMap nid).getD []).foldl
              (fun acc2 e => if included.contains e then (acc2.add_edge nid e).2 else acc2)
              a) acc).nextMap k
            = (if ((mapFind g.nextMap k).getD []).filter
                  (fun e => included.contains e) = []
               then none
               else some (((mapFind g.nextMap k).getD []).filter
                  (fun e => included.contains e))))
      ∧ (∀ k, k ∉ l →
          mapFind (l.foldl (fun a nid => ((mapFind g.nextMap nid).getD []).foldl
              (fun acc2 e => if included.contains e then (acc2.add_edge nid e).2 else acc2)
              a) acc).nextMap k = mapFind acc.nextMap k) := by
  intro l
  induction l with
  | nil =>
    intro acc hacc _ _ _
    exact ⟨hacc, fun k hk => absurd hk (List.not_mem_nil k), fun k _ => rfl⟩
  | cons nid rest ih =>
    intro acc hacc hsub hnd hacc0
    have hnidinc : nid ∈ included := hsub nid (by simp)
    have hnid : (alookup g.idMap nid).isSome := hinc nid hnidinc
    obtain ⟨j1, j2, j3⟩ :=
      innerFold_spec g included hinc nid hnid ((mapFind g.nextMap nid).getD []) acc hacc
    simp only [List.nodup_cons] at hnd
    simp only [List.foldl_cons]
    obtain ⟨k1, k2, k3⟩ := ih (((mapFind g.nextMap nid).getD []).foldl
        (fun acc2 e => if included.contains e then (acc2.add_edge nid e).2 else acc2) acc)
      j1 (fun x hx => hsub x (List.mem_cons_of_mem _ hx)) hnd.2
      (by
        intro k hk
        have hkne : k ≠ nid := fun hc => hnd.1 (hc ▸ hk)
        rw [j3 k hkne]
        exact hacc0 k (List.mem_cons_of_mem _ hk))
    refine ⟨k1, ?_, ?_⟩
    · intro k hk
      rcases List.mem_cons.mp hk with hk | hk
      · subst hk
        have hknr : k ∉ rest := hnd.1
        rw [k3 k hknr, j2]
        rw [hacc0 k (by simp)]
        by_cases hf : ((mapFind g.nextMap k).getD []).filter
            (fun e => included.contains e) = []
        · rw [if_pos hf, if_pos hf]
        · rw [if_neg hf, if_neg hf]
          rfl
      · exact k2 k hk
    · intro k hk
      have hk1 : k ∉ rest := fun hc => hk (List.mem_cons_of_mem _ hc)
      have hk2 : k ≠ nid := fun hc => hk (hc ▸ List.mem_cons_self _ _)
      rw [k3 k hk1, j3 k hk2]

theorem includedIdsFilter_isSome (g : Graph) (f : List Bool) :
    ∀ x ∈ includedIdsFilter g f, (alookup g.idMap x).isSome := by
  intro x hx
  simp only [includedIdsFilter] at hx
  obtain ⟨p, hp, hfst⟩ := List.mem_map.mp hx
  have hpm : p ∈ g.idMap := (List.mem_filter.mp hp).1
  have hpair : (p.1, p.2) ∈ g.idMap := by simpa using hpm
  exact hfst ▸ alookup_isSome_of_mem g.idMap p.1 p.2 hpair

theorem includedIdsFilter_nodup (g : Graph) (f : List Bool)
    (hN : (g.idMap.map Prod.fst).Nodup) : (includedIdsFilter g f).Nodup := by
  simp only [includedIdsFilter]
  exact List.Nodup.sublist
    (List.Sublist.map Prod.fst (List.filter_sublist _)) hN

theorem includedIdsFilter_mem_iff (g : Graph) (f : List Bool)
    (hN : (g.idMap.map Prod.fst).Nodup) (p : Int × Node) (hp : p ∈ g.idMap) :
    p.1 ∈ includedIdsFilter g f ↔
      ((p.2.ref = true ∧ ∃ i, i < f.length ∧ f.getD i false = true)
       ∨ ∃ i, i < f.length ∧ f.getD i false = true
           ∧ p.2.individuals.getD i false = true) := by
  have hpred : ∀ n : Node,
      ((((List.range f.length).filter (fun i => f.getD i false)).any
        (fun i => decide (n.belongs i ≠ 0))) = true ↔
      ((n.ref = true ∧ ∃ i, i < f.length ∧ f.getD i false = true)
       ∨ ∃ i, i < f.length ∧ f.getD i false = true
           ∧ n.individuals.getD i false = true)) := by
    intro n
    rw [List.any_eq_true]
    constructor
    · rintro ⟨i, hi, hb⟩
      have him := List.mem_filter.mp hi
      have hilt : i < f.length := List.mem_range.mp him.1
      have hif : f.getD i false = true := by simpa using him.2
      have hb' : n.belongs i ≠ 0 := of_decide_eq_true hb
      unfold Node.belongs at hb'
      by_cases href : n.ref
      · exact Or.inl ⟨href, i, hilt, hif⟩
      · rw [if_neg href] at hb'
        by_cases hind : n.individuals.getD i false
        · exact Or.inr ⟨i, hilt, hif, hind⟩
        · rw [if_neg hind] at hb'
          exact absurd rfl hb'
    · rintro (⟨href, i, hilt, hif⟩ | ⟨i, hilt, hif, hind⟩)
      · exact ⟨i, List.mem_filter.mpr ⟨List.mem_range.mpr hilt, by simpa using hif⟩,
          by simp [Node.belongs, href]⟩
      · refine ⟨i, List.mem_filter.mpr ⟨List.mem_range.mpr hilt, by simpa using hif⟩, ?_⟩
        by_cases href : n.ref
        · simp [Node.belongs, href]
        · have hb1 : n.belongs i = 1 := by
            unfold Node.belongs
            rw [if_neg href, if_pos hind]
          simp [hb1]
  constructor
  · intro hx
    simp only [includedIdsFilter] at hx
    obtain ⟨q, hq, hqx⟩ := List.mem_map.mp hx
    have hqm := (List.mem_filter.mp hq).1
    have hqpred := (List.mem_filter.mp hq).2
    have hqpair : (p.1, q.2) ∈ g.idMap := by
      have : (q.1, q.2) ∈ g.idMap := by simpa using hqm
      rw [hqx] at this
      exact this
    have hppair : (p.1, p.2) ∈ g.idMap := by simpa using hp
    have hqp : q.2 = p.2 := mem_keys_nodup_unique g.idMap hN p.1 q.2 p.2 hqpair hppair
    rw [hqp] at hqpred
    exact (hpred p.2).mp hqpred
  · intro hr
    have hpp := (hpred p.2).mpr hr
    simp only [includedIdsFilter]
    exact List.mem_map.mpr ⟨p, List.mem_filter.mpr ⟨hp, hpp⟩, rfl⟩

theorem buildDerivedEdges_ok (g : Graph) (included : List Int) (h0 r : Graph)
    (hinc : ∀ x ∈ included, (alookup g.idMap x).isSome)
    (hND : included.Nodup)
    (hacc : h0.idMap = g.idMap) (h0next : h0.nextMap = [])
    (hok : buildDerivedEdges g included h0 = .ok r) :
    r.root = g.root
    ∧ r.nextMap = (included.foldl (fun acc nid =>
        ((mapFind g.nextMap nid).getD []).foldl
          (fun acc2 e => if included.contains e then (acc2.add_edge nid e).2 else acc2)
          acc) h0).nextMap
    ∧ ∀ u v, v ∈ (mapFind r.nextMap u).getD []
        ↔ (u ∈ included ∧ v ∈ included ∧ v ∈ (mapFind g.nextMap u).getD []) := by
  unfold buildDerivedEdges at hok
  by_cases hroot : included.contains g.root
  · rw [if_pos hroot] at hok
    injection hok with hok
    subst hok
    refine ⟨rfl, rfl, ?_⟩
    obtain ⟨k1, k2, k3⟩ := outerFold_spec g included hinc included h0
      hacc (fun x hx => hx) hND
      (by intro k _; rw [h0next]; rfl)
    intro u v
    by_cases hu : u ∈ included
    · rw [show mapFind ({ included.foldl (fun acc nid =>
          ((mapFind g.nextMap nid).getD []).foldl
            (fun acc2 e => if included.contains e then (acc2.add_edge nid e).2 else acc2)
            acc) h0 with root := g.root } : Graph).nextMap u
          = mapFind (included.foldl (fun acc nid =>
          ((mapFind g.nextMap nid).getD []).foldl
            (fun acc2 e => if included.contains e then (acc2.add_edge nid e).2 else acc2)
            acc) h0).nextMap u from rfl]
      rw [k2 u hu]
      by_cases hf : ((mapFind g.nextMap u).getD []).filter
          (fun e => included.contains e) = []
      · rw [if_pos hf]
        simp only [Option.getD_none, List.not_mem_nil, false_iff]
        rintro ⟨_, hv, hvs⟩
        have : v ∈ ((mapFind g.nextMap u).getD []).filter
            (fun e => included.contains e) :=
          List.mem_filter.mpr ⟨hvs, by simpa using hv⟩
        rw [hf] at this
        exact List.not_mem_nil v this
      · rw [if_neg hf]
        simp only [Option.getD_some]
        rw [List.mem_filter]
        constructor
        · rintro ⟨hvs, hv⟩
          exact ⟨hu, by simpa using hv, hvs⟩
        · rintro ⟨_, hv, hvs⟩
          exact ⟨hvs, by simpa using hv⟩
    · rw [show mapFind ({ included.foldl (fun acc nid =>
          ((mapFind g.nextMap nid).getD []).foldl
            (fun acc2 e => if included.contains e then (acc2.add_edge nid e).2 else acc2)
            acc) h0 with root := g.root } : Graph).nextMap u
          = mapFind (included.foldl (fun acc nid =>
          ((mapFind g.nextMap nid).getD []).foldl
            (fun acc2 e => if included.contains e then (acc2.add_edge nid e).2 else acc2)
            acc) h0).nextMap u from rfl]
      rw [k3 u hu, h0next]
      simp only [mapFind, alookup, Option.getD_none, List.not_mem_nil, false_iff]
      rintro ⟨hu2, _, _⟩
      exact hu hu2
  · rw [if_neg hroot] at hok
    cases hok

/-- Counterexample for C3: under the all-false filter the collected index
list is empty, so not even the reference root of `singleRefGraph` is
included, against the claim that reference nodes are included for every
filter; the derivation then fails because the root is not included. -/
theorem filter_allfalse_cex :
    (alookup singleRefGraph.idMap 0).map Node.ref = some true
    ∧ includedIdsFilter singleRefGraph [false] = []
    ∧ deriveFilter singleRefGraph [false] = .error .invalidDerivation :=
  ⟨rfl, rfl, rfl⟩

/-- C3 amended: for a successful haplotype-filter derivation, a node is
included iff it is a reference node and the filter has at least one true bit,
or some true filter index hits a set bit of its haplotype bitset (so under
the all-false filter nothing, not even a reference node, is included and the
derivation fails); edges are rebuilt over exactly the included set and the
insertion order is preserved, restricted to included nodes. -/
theorem filter_derivation_spec (g : Graph) (f : List Bool) (h : Graph)
    (hN : (g.idMap.map Prod.fst).Nodup)
    (hok : deriveFilter g f = .ok h) :
    (∀ p ∈ g.idMap, (p.1 ∈ includedIdsFilter g f ↔
        ((p.2.ref = true ∧ ∃ i, i < f.length ∧ f.getD i false = true)
         ∨ ∃ i, i < f.length ∧ f.getD i false = true
             ∧ p.2.individuals.getD i false = true)))
    ∧ h.addOrder = g.addOrder.filter (fun id => (includedIdsFilter g f).contains id)
    ∧ h.toposort = h.addOrder
    ∧ (∀ u v, v ∈ (mapFind h.nextMap u).getD []
        ↔ (u ∈ includedIdsFilter g f ∧ v ∈ includedIdsFilter g f
           ∧ v ∈ (mapFind g.nextMap u).getD [])) := by
  unfold deriveFilter at hok
  dsimp only at hok
  cases hbe : buildDerivedEdges g (includedIdsFilter g f)
      { idMap := g.idMap, popSize := g.popSize } with
  | error e => rw [hbe] at hok; cases hok
  | ok g1 =>
    rw [hbe] at hok
    injection hok with hok
    subst hok
    obtain ⟨hb1, hb2, hb3⟩ := buildDerivedEdges_ok g (includedIdsFilter g f)
      { idMap := g.idMap, popSize := g.popSize } g1
      (includedIdsFilter_isSome g f) (includedIdsFilter_nodup g f hN)
      rfl rfl hbe
    refine ⟨?_, rfl, rfl, ?_⟩
    · intro p hp
      exact includedIdsFilter_mem_iff g f hN p hp
    · intro u v
      exact hb3 u v

/-- Witness for C3 amended: the single-reference-node graph under the filter
`[true]`, whose derivation succeeds and keeps the reference root. -/
theorem filter_derivation_spec_witness :
    (∀ p ∈ singleRefGraph.idMap,
        (p.1 ∈ includedIdsFilter singleRefGraph [true] ↔
        ((p.2.ref = true ∧ ∃ i, i < ([true] : List Bool).length
            ∧ ([true] : List Bool).getD i false = true)
         ∨ ∃ i, i < ([true] : List Bool).length
             ∧ ([true] : List Bool).getD i false = true
             ∧ p.2.individuals.getD i false = true)))
    ∧ filteredSingle.addOrder = singleRefGraph.addOrder.filter
        (fun id => (includedIdsFilter singleRefGraph [true]).contains id)
    ∧ filteredSingle.toposort = filteredSingle.addOrder
    ∧ (∀ u v, v ∈ (mapFind filteredSingle.nextMap u).getD []
        ↔ (u ∈ includedIdsFilter singleRefGraph [true]
           ∧ v ∈ includedIdsFilter singleRefGraph [true]
           ∧ v ∈ (mapFind singleRefGraph.nextMap u).getD [])) :=
  filter_derivation_spec singleRefGraph [true] filteredSingle (by decide) rfl
